import Mathlib

/-!
Verification development for the 4-digit Mastermind-style solver
(engine.ts and the benchmarking module).

Codes are ordered 4-tuples of digits 0-9.  The JavaScript source is
embedded shallowly: machine numbers become `Nat`/`Int` (32-bit wrapping is
written explicitly as `% 2^32` where the PRNG needs it), fallible
operations return `Option` (`none` models the JavaScript `undefined` and
`null` values), and the mutable accumulation loops become `List.foldl`
over explicit state.  Opaque presentation strings (reasoning text,
summaries, analysis rationale) carry no behavioural contract and are not
modelled.
-/

namespace GuessGame

abbrev Digit := Fin 10

/-- A 4-digit code, `engine.ts` `type Code = [Digit, Digit, Digit, Digit]`. -/
abbrev Code := Digit × Digit × Digit × Digit

/-- Histogram entry: how often digit `d` occurs in code `c`.  This is the
value `gCount[d]` (resp. `tCount[d]`) after the counting loop in
`computeFeedback`: one increment per position holding `d`. -/
def countDigit (c : Code) (d : Digit) : Nat :=
  (if c.1 = d then 1 else 0) + (if c.2.1 = d then 1 else 0) +
    (if c.2.2.1 = d then 1 else 0) + (if c.2.2.2 = d then 1 else 0)

/-- `computeFeedback(guess, target)`: sum over the ten digit values of the
minimum of the two histogram entries (multiset intersection cardinality). -/
def computeFeedback (g t : Code) : Nat :=
  ((List.finRange 10).map (fun d => min (countDigit g d) (countDigit t d))).sum

/-- `isExactMatch(guess, target)`: positional equality. -/
def isExactMatch (g t : Code) : Bool :=
  decide (g = t)

/-- `generateAllCodes()`: the full 10,000-element space, lexicographically
ordered exactly like the four nested loops in the source. -/
def generateAllCodes : List Code :=
  (List.finRange 10).flatMap fun a =>
    (List.finRange 10).flatMap fun b =>
      (List.finRange 10).flatMap fun c =>
        (List.finRange 10).map fun d => (a, b, c, d)

/-- `filterCandidates(candidates, guess, feedback)`. -/
def filterCandidates (candidates : List Code) (guess : Code) (feedback : Nat) : List Code :=
  candidates.filter fun c => decide (computeFeedback guess c = feedback)

/-- The four positions of a code as a list (used to state the spec's
"count of d in guess" wording). -/
def codeDigits (c : Code) : List Digit :=
  [c.1, c.2.1, c.2.2.1, c.2.2.2]

def digitChar (d : Digit) : Char :=
  Char.ofNat (48 + d.val)

/-- `codeToString(code)`: `code.join('')`. -/
def codeToString (c : Code) : String :=
  String.mk [digitChar c.1, digitChar c.2.1, digitChar c.2.2.1, digitChar c.2.2.2]

/-- The characters on which the JavaScript conversion `Number(ch)` (for a
single-character string) yields `0` rather than `NaN`: ECMAScript
WhiteSpace and LineTerminator code points (a whitespace-only string
converts to the number 0). -/
def jsWhitespace : List Char :=
  [Char.ofNat 9, Char.ofNat 10, Char.ofNat 11, Char.ofNat 12, Char.ofNat 13,
    Char.ofNat 32, Char.ofNat 160, Char.ofNat 0x1680, Char.ofNat 0x2000,
    Char.ofNat 0x2001, Char.ofNat 0x2002, Char.ofNat 0x2003, Char.ofNat 0x2004,
    Char.ofNat 0x2005, Char.ofNat 0x2006, Char.ofNat 0x2007, Char.ofNat 0x2008,
    Char.ofNat 0x2009, Char.ofNat 0x200A, Char.ofNat 0x2028, Char.ofNat 0x2029,
    Char.ofNat 0x202F, Char.ofNat 0x205F, Char.ofNat 0x3000, Char.ofNat 0xFEFF]

/-- JavaScript `Number(ch)` for a one-character string `ch`: the digit
value for `'0'..'9'`, `0` for whitespace-only strings, `NaN` (modelled as
`none`) otherwise.  No other single character parses as a number. -/
def jsCharToNumber (c : Char) : Option Nat :=
  if '0' ≤ c ∧ c ≤ '9' then some (c.toNat - 48)
  else if c ∈ jsWhitespace then some 0
  else none

/-- The range check `isNaN(d) || d < 0 || d > 9` followed by the cast to
`Digit` (for a `Nat`, `d < 0` is vacuous). -/
def natToDigit (n : Nat) : Option Digit :=
  if h : n ≤ 9 then some ⟨n, by omega⟩ else none

/-- `stringToCode(s)`: length-4 check, `s.split('').map(Number)`, reject
`NaN`/out-of-range entries, otherwise assemble the code. -/
def stringToCode (s : String) : Option Code :=
  if s.length = 4 then
    match s.toList.map jsCharToNumber with
    | [some a, some b, some c, some d] =>
      match natToDigit a, natToDigit b, natToDigit c, natToDigit d with
      | some a', some b', some c', some d' => some (a', b', c', d')
      | _, _, _, _ => none
    | _ => none
  else none

/-! ## Strategy search primitives (benchmark module and engine.ts) -/

/-- Tail-recursive list length.  Used wherever the source reads `.length`
of a (possibly 10,000-element) search pool, so that concrete runs reduce
in constant stack space; provably equal to `List.length`. -/
def poolSize (l : List Code) : Nat :=
  l.foldl (fun n _ => n + 1) 0

/-- Structural helper for `stridedSample`; the fuel is the pool length,
which bounds the iteration count of the sampling loop for every step. -/
def stridedSampleAux (step : Nat) : Nat → List Code → List Code
  | 0, _ => []
  | _ + 1, [] => []
  | fuel + 1, c :: rest => c :: stridedSampleAux step fuel (rest.drop (step - 1))

/-- The elements visited at offsets `0, step, 2*step, ...` by the sampling
loops `for (let i = 0; i < pool.length; i += step)`.  All call sites set
`step = max 1 _`, so `step ≥ 1` there. -/
def stridedSample (pool : List Code) (step : Nat) : List Code :=
  stridedSampleAux step (poolSize pool) pool

/-- The feedback values a guess induces over a candidate list (one entry
per candidate); the partition map of `computePartitions` sends `fb` to the
number of occurrences of `fb` in this list. -/
def feedbackList (g : Code) (cs : List Code) : List Nat :=
  cs.map fun c => computeFeedback g c

/-- Size of the partition of `cs` (by feedback against `g`) labelled `fb`. -/
def partitionSize (g : Code) (cs : List Code) (fb : Nat) : Nat :=
  (feedbackList g cs).count fb

/-- `worstPartition`: the largest partition size.  Feedback values always
lie in `0..4`, so taking the maximum over those five labels equals the
maximum over the values stored in the partition map (`0` when `cs = []`,
as in the source where the map is empty). -/
def worstCase (g : Code) (cs : List Code) : Nat :=
  ((List.range 5).map (partitionSize g cs)).foldl max 0

/-- Integer stand-in for the Shannon entropy comparison: for a fixed
candidate count `n`, `H = log2 n - (1/n) * log2 (∏ fb size(fb)^size(fb))`,
so `H guess1 > H guess2 ↔ weight guess1 < weight guess2`.  The source
compares floating-point entropies; the comparison is modelled exactly on
this integer weight, with smaller weight meaning larger entropy. -/
def entropyWeight (g : Code) (cs : List Code) : Nat :=
  ((List.range 5).map fun fb => partitionSize g cs fb ^ partitionSize g cs fb).prod

/-- One iteration of the minimax search loops: keep the sampled guess if
its worst case is strictly smaller, or if it ties the current best while
being a candidate when the current best is not.  State: (bestGuess,
bestWorst, bestIsCandidate). -/
def minimaxStep (cs : List Code) (b : Code × Nat × Bool) (g : Code) : Code × Nat × Bool :=
  let w := worstCase g cs
  let ic := decide (g ∈ cs)
  if w < b.2.1 ∨ (w = b.2.1 ∧ ic = true ∧ b.2.2 = false) then (g, w, ic) else b

def minimaxFold (cs : List Code) (init : Code × Nat × Bool) (sample : List Code) :
    Code × Nat × Bool :=
  sample.foldl (minimaxStep cs) init

/-- One iteration of the entropy search loops: keep the sampled guess if
its entropy is strictly larger (integer weight strictly smaller).  The
initial `bestEntropy = -1` of the source is the `none` state: the first
sampled guess always replaces it, since every entropy is `≥ 0 > -1`. -/
def entropyStep (cs : List Code) (b : Code × Option Nat) (g : Code) : Code × Option Nat :=
  let w := entropyWeight g cs
  match b.2 with
  | none => (g, some w)
  | some bw => if w < bw then (g, some w) else b

def entropyFold (cs : List Code) (g0 : Code) (sample : List Code) : Code :=
  (sample.foldl (entropyStep cs) (g0, none)).1

/-! ## The four benchmark strategies (benchmark module)

Each returns `Option Code`; `none` models the JavaScript value `undefined`
that `candidates[0]` produces on an empty list. -/

/-- Probe sequence of `frequencyProbeGuess`. -/
def probeSequence : List Code :=
  [(0, 1, 2, 3), (4, 5, 6, 7), (8, 9, 0, 1), (2, 3, 4, 5), (6, 7, 8, 9)]

def frequencyProbeGuess (candidates _allCodes : List Code) (round : Nat) : Option Code :=
  let n := candidates.length
  if round < 5 ∧ n > 100 then probeSequence.get? round
  else if n ≤ 2 then candidates.head?
  else
    let limit := min (poolSize candidates) 500
    let step := max 1 (poolSize candidates / limit)
    candidates.head?.map fun c0 =>
      ((stridedSample candidates step).foldl
        (fun (b : Code × Nat) g =>
          let w := worstCase g candidates
          if w < b.2 then (g, w) else b)
        (c0, n)).1

/-- Search pool of the entropy searches: full space for pools of at most
500 candidates, the candidate list itself beyond that (`maxEntropyGuess`
and the medium branch of `getSmartGuess` use the same expression). -/
def entropySearchPool (candidates allCodes : List Code) : List Code :=
  if candidates.length ≤ 500 then allCodes else candidates

def maxEntropyGuess (candidates allCodes : List Code) (_round : Nat) : Option Code :=
  let n := candidates.length
  if n ≤ 2 then candidates.head?
  else
    let pool := entropySearchPool candidates allCodes
    let limit := min (poolSize pool) (if n ≤ 200 then 5000 else 2000)
    let step := max 1 (poolSize pool / limit)
    candidates.head?.map fun c0 => entropyFold candidates c0 (stridedSample pool step)

/-- Search pool of `minimaxGuess`: full space for at most 50 candidates. -/
def minimaxSearchPool (candidates allCodes : List Code) : List Code :=
  if candidates.length ≤ 50 then allCodes else candidates

/-- The strided sample `minimaxGuess` evaluates. -/
def minimaxSample (candidates allCodes : List Code) : List Code :=
  let pool := minimaxSearchPool candidates allCodes
  let limit := min (poolSize pool) (if candidates.length ≤ 50 then 5000 else 2000)
  stridedSample pool (max 1 (poolSize pool / limit))

def minimaxGuess (candidates allCodes : List Code) (_round : Nat) : Option Code :=
  let n := candidates.length
  if n ≤ 2 then candidates.head?
  else
    candidates.head?.map fun c0 =>
      (minimaxFold candidates (c0, n, false) (minimaxSample candidates allCodes)).1

/-- Probe sequence of the hybrid strategy and of `getSmartGuess`. -/
def hybridProbes : List Code :=
  [(0, 1, 2, 3), (4, 5, 6, 7), (8, 9, 0, 1)]

def hybridGuess (candidates allCodes : List Code) (round : Nat) : Option Code :=
  let n := candidates.length
  if round < 3 ∧ n > 5000 then hybridProbes.get? round
  else if n ≤ 200 then minimaxGuess candidates allCodes round
  else maxEntropyGuess candidates allCodes round

inductive StrategyName
  | frequencyProbe
  | maxEntropy
  | minimax
  | hybrid
deriving DecidableEq

/-- The strategy dispatcher `getGuess` of the benchmark module. -/
def getGuess (strategy : StrategyName) (candidates allCodes : List Code) (round : Nat) :
    Option Code :=
  match strategy with
  | .frequencyProbe => frequencyProbeGuess candidates allCodes round
  | .maxEntropy => maxEntropyGuess candidates allCodes round
  | .minimax => minimaxGuess candidates allCodes round
  | .hybrid => hybridGuess candidates allCodes round

/-! ## getSmartGuess (engine.ts)

Only the chosen guess is modelled; the `analysis` payload consists of
derived statistics and presentation strings that do not influence the
chosen guess, and the `history` argument feeds only that payload (the
`analyzeKnowledge` / `analyzePositionClues` results appear in strings and
phase labels alone), so the guess is a function of the candidates, the
full space and the round index. -/

def default0 : Code := (0, 0, 0, 0)

/-- The strided sample evaluated by the minimax phase of `getSmartGuess`
(pool: full space for at most 50 candidates; limits 10000/5000). -/
def smartMinimaxSample (candidates allCodes : List Code) : List Code :=
  let pool := if candidates.length ≤ 50 then allCodes else candidates
  let limit := min (poolSize pool) (if candidates.length ≤ 50 then 10000 else 5000)
  stridedSample pool (max 1 (poolSize pool / limit))

/-- The minimax phase of `getSmartGuess` (candidate pool of at most 200);
unlike `minimaxGuess`, `bestIsCandidate` starts as `true`. -/
def smartMinimaxPhase (candidates allCodes : List Code) : Code :=
  (minimaxFold candidates (candidates.headD default0, candidates.length, true)
    (smartMinimaxSample candidates allCodes)).1

/-- The medium-pool entropy phase of `getSmartGuess` (pool of at most
1000): samples `entropySearchPool` with evaluation limit 3000. -/
def smartEntropyMidPhase (candidates allCodes : List Code) : Code :=
  let pool := entropySearchPool candidates allCodes
  let limit := min (poolSize pool) 3000
  let step := max 1 (poolSize pool / limit)
  entropyFold candidates (candidates.headD default0) (stridedSample pool step)

/-- The large-pool entropy phase of `getSmartGuess`: samples the candidate
list only, evaluation limit 2000. -/
def smartEntropyLargePhase (candidates : List Code) : Code :=
  let step := max 1 (poolSize candidates / 2000)
  entropyFold candidates (candidates.headD default0) (stridedSample candidates step)

def getSmartGuess (candidates allCodes : List Code) (round : Nat) : Code :=
  let n := candidates.length
  if n ≤ 1 then candidates.headD default0
  else if n = 2 then candidates.headD default0
  else if round < 3 ∧ n > 5000 then hybridProbes.getD round default0
  else if n ≤ 200 then smartMinimaxPhase candidates allCodes
  else if n ≤ 1000 then smartEntropyMidPhase candidates allCodes
  else smartEntropyLargePhase candidates

/-! ## Knowledge deduction (engine.ts, analyzeKnowledge)

Counts are `Int`: the JavaScript `remainingSlots = 4 - knownSum` can be
negative on contradictory histories, and `maxCount` is capped with it. -/

structure DigitKnowledge where
  confirmedCount : Option Int
  minCount : Int
  maxCount : Int
deriving DecidableEq

/-- One history entry as far as `analyzeKnowledge` reads it: the guess and
the (possibly still null) feedback.  The `round` index, `isCorrect` flag
and the stored analysis payload are never consulted by the deduction. -/
structure GameRound where
  guess : Code
  feedback : Option Int
deriving DecidableEq

def initDigits : Fin 10 → DigitKnowledge :=
  fun _ => ⟨none, 0, 4⟩

/-- `uniqueDigitsInGuess === 1`: the guess is monochromatic (all four
positions hold the same digit). -/
def uniformGuess (c : Code) : Bool :=
  decide ((((List.finRange 10).filter fun d => decide (0 < countDigit c d)).length) = 1)

/-- Processing of one history round: rounds without feedback are skipped;
a monochromatic guess of digit `d` with feedback `fb` confirms that `d`
occurs exactly `fb` times.  Mixed guesses contribute nothing (the source
only documents, in comments, bounds it never computes). -/
def processRound (m : Fin 10 → DigitKnowledge) (r : GameRound) : Fin 10 → DigitKnowledge :=
  match r.feedback with
  | none => m
  | some fb =>
    if uniformGuess r.guess then Function.update m r.guess.1 ⟨some fb, fb, fb⟩ else m

def processHistory (h : List GameRound) : Fin 10 → DigitKnowledge :=
  h.foldl processRound initDigits

/-- `knownSum`: the sum of all confirmed counts (unconfirmed digits
contribute 0, matching the `!== null` guard). -/
def knownSum (m : Fin 10 → DigitKnowledge) : Int :=
  ∑ d : Fin 10, ((m d).confirmedCount.getD 0)

/-- The two post-processing passes over the digit array: when
`remainingSlots = 0` every unconfirmed digit becomes confirmed-0, then
every still-unconfirmed digit has its `maxCount` capped by
`remainingSlots`. -/
def capAndForce (m : Fin 10 → DigitKnowledge) (rem : Int) : Fin 10 → DigitKnowledge :=
  fun d =>
    let k1 := if rem = 0 ∧ (m d).confirmedCount = none then ⟨some 0, 0, 0⟩ else m d
    if k1.confirmedCount = none then { k1 with maxCount := min k1.maxCount rem } else k1

inductive DigitClass
  | confirmedC
  | eliminatedC
  | unknownC
deriving DecidableEq

/-- The classification loop: a confirmed count sorts the digit into
confirmed (`> 0`) or eliminated (`= 0`); an unconfirmed digit with
`maxCount = 0` is eliminated; everything else stays unknown. -/
def classOf (k : DigitKnowledge) : DigitClass :=
  match k.confirmedCount with
  | some c => if 0 < c then .confirmedC else .eliminatedC
  | none => if k.maxCount = 0 then .eliminatedC else .unknownC

structure KnowledgeState where
  digits : Fin 10 → DigitKnowledge
  confirmedDigits : List (Fin 10)
  eliminatedDigits : List (Fin 10)
  unknownDigits : List (Fin 10)
  confirmedSlots : Int
  remainingSlots : Int
  compositionKnown : Bool

/-- `analyzeKnowledge(history)` (summary string omitted).  `digits` also
receives the in-loop mutation that pins unconfirmed `maxCount = 0` digits
to confirmed-0. -/
def analyzeKnowledge (h : List GameRound) : KnowledgeState :=
  let m0 := processHistory h
  let ks := knownSum m0
  let rem : Int := 4 - ks
  let m2 := capAndForce m0 rem
  let conf := (List.finRange 10).filter fun d => decide (classOf (m2 d) = .confirmedC)
  let elim := (List.finRange 10).filter fun d => decide (classOf (m2 d) = .eliminatedC)
  let unk := (List.finRange 10).filter fun d => decide (classOf (m2 d) = .unknownC)
  let m3 := fun d =>
    if (m2 d).confirmedCount = none ∧ (m2 d).maxCount = 0 then
      { m2 d with confirmedCount := some 0 }
    else m2 d
  { digits := m3, confirmedDigits := conf, eliminatedDigits := elim, unknownDigits := unk,
    confirmedSlots := ks, remainingSlots := 4 - ks,
    compositionKnown := decide (unk.length = 0 ∧ rem = 0) }

/-- The digits probed by rounds that already carry feedback. -/
def probedDigits (h : List GameRound) : List Digit :=
  h.filterMap fun r => if r.feedback.isSome then some r.guess.1 else none

/-- The sum of all non-null feedbacks of a history. -/
def feedbackTotal (h : List GameRound) : Int :=
  (h.filterMap fun r => r.feedback).sum

/-! ## Single-game simulator (benchmark module, simulateGame) -/

structure GameResult where
  target : String
  steps : Nat
  guesses : List String
deriving DecidableEq

/-- The simulation loop, fuel-indexed by the remaining rounds (the source
runs `for (round = 0; round < maxSteps; round++)`).  `none` models the
crash the source would suffer if a strategy ever produced `undefined`
(never reached from `simulateGame`, whose candidate list stays nonempty).
The `if (candidates.length === 0)` contradiction branch is kept. -/
def simulateGo (strat : StrategyName) (t : Code) (all : List Code) (maxSteps : Nat) :
    Nat → Nat → List Code → List String → Option GameResult
  | 0, _round, _cs, gs => some ⟨codeToString t, maxSteps, gs⟩
  | fuel + 1, round, cs, gs =>
    match getGuess strat cs all round with
    | none => none
    | some g =>
      let gs' := gs ++ [codeToString g]
      if isExactMatch g t then some ⟨codeToString t, round + 1, gs'⟩
      else
        let cs' := filterCandidates cs g (computeFeedback g t)
        if cs'.length = 0 then some ⟨codeToString t, maxSteps, gs'⟩
        else simulateGo strat t all maxSteps fuel (round + 1) cs' gs'

/-- `simulateGo` with the empty-candidate contradiction branch removed;
used to state that the branch is dead code when the target is among the
candidates. -/
def simulateGoNC (strat : StrategyName) (t : Code) (all : List Code) (maxSteps : Nat) :
    Nat → Nat → List Code → List String → Option GameResult
  | 0, _round, _cs, gs => some ⟨codeToString t, maxSteps, gs⟩
  | fuel + 1, round, cs, gs =>
    match getGuess strat cs all round with
    | none => none
    | some g =>
      let gs' := gs ++ [codeToString g]
      if isExactMatch g t then some ⟨codeToString t, round + 1, gs'⟩
      else
        simulateGoNC strat t all maxSteps fuel (round + 1)
          (filterCandidates cs g (computeFeedback g t)) gs'

/-- `simulateGame(strategy, target, allCodes, maxSteps)`; candidates start
as a copy of the full space. -/
def simulateGame (strat : StrategyName) (t : Code) (all : List Code) (maxSteps : Nat) :
    Option GameResult :=
  simulateGo strat t all maxSteps maxSteps 0 all []

/-! ## Seeded target generation and benchmark entry (benchmark module) -/

def M32 : Nat := 4294967296

/-- One call of the mulberry32 `rand()` closure: the state update
`s = s + 0x6D2B79F5 | 0` followed by the tempering steps, returning the
new state and the 32-bit output (the source divides it by `2^32` to get a
float in `[0,1)`; the division is fused into `randDigit` below).  All
JavaScript 32-bit operations (`|0`, `Math.imul`, `^`, `|`, `>>>`) are
modelled on the unsigned residue `% 2^32`, which carries the same bit
pattern as the signed values the source manipulates. -/
def mulberryStep (s : Nat) : Nat × Nat :=
  let s1 := (s + 0x6D2B79F5) % M32
  let t1 := ((s1 ^^^ (s1 >>> 15)) * (s1 ||| 1)) % M32
  let t2 := ((t1 + ((t1 ^^^ (t1 >>> 7)) * (t1 ||| 61)) % M32) % M32) ^^^ t1
  (s1, t2 ^^^ (t2 >>> 14))

/-- `Math.floor(rand() * 10)` for 32-bit output `r`; the guard is
unreachable for `r < 2^32` and only certifies the `Fin 10` bound. -/
def randDigit (r : Nat) : Digit :=
  if h : r * 10 / M32 < 10 then ⟨r * 10 / M32, h⟩ else ⟨0, by omega⟩

/-- Four `rand()` draws assembling one candidate target code. -/
def randCode (s : Nat) : Nat × Code :=
  let p1 := mulberryStep s
  let p2 := mulberryStep p1.1
  let p3 := mulberryStep p2.1
  let p4 := mulberryStep p3.1
  (p4.1, (randDigit p1.2, randDigit p2.2, randDigit p3.2, randDigit p4.2))

/-- The generation loop `while (targets.length < count)`, fuel-indexed by
the number of attempts: draw a code, skip it when its string key was seen,
otherwise record it.  Targets accumulate in reverse and are flipped at the
end, preserving the source's push order. -/
def genTargetsAux (count : Nat) : Nat → Nat → List String → List Code → List Code
  | 0, _s, _seen, acc => acc.reverse
  | fuel + 1, s, seen, acc =>
    if acc.length < count then
      let sc := randCode s
      let key := codeToString sc.2
      if key ∈ seen then genTargetsAux count fuel sc.1 seen acc
      else genTargetsAux count fuel sc.1 (key :: seen) (sc.2 :: acc)
    else acc.reverse

/-- `generateRandomTargets(count, seed)`, fuel-indexed (the source loop
has no bound of its own); the initial `s |= 0` truncation is the
`% 2^32`. -/
def generateRandomTargets (fuel count seed : Nat) : List Code :=
  genTargetsAux count fuel (seed % M32) [] []

/-- Completed generation: `some` exactly when the loop reached `count`
targets within `fuel` attempts; `none` means the JavaScript loop would
still be running after that many iterations. -/
def generateRandomTargetsComplete (fuel count seed : Nat) : Option (List Code) :=
  let l := generateRandomTargets fuel count seed
  if l.length = count then some l else none

structure BenchmarkConfig where
  numTargets : Nat
  strategies : List StrategyName
  seed : Option Nat

/-- The target list `runBenchmarkAsync` computes synchronously before
scheduling any chunk (`seed ?? Date.now()` with `now` standing for the
clock value).  Every `onProgress`/`onComplete` invocation happens inside
`processNextChunk`, which is first scheduled only after this computation
finishes, so `none` (generation still looping after any fuel budget)
means no callback is ever invoked. -/
def runBenchmarkTargets (fuel : Nat) (config : BenchmarkConfig) (now : Nat) :
    Option (List Code) :=
  generateRandomTargetsComplete fuel config.numTargets (config.seed.getD now)

/-! ## Claim-support definitions -/

/-- The spec-side reading of a valid code string ("length 4 and every
character a decimal digit"), for comparison with `stringToCode`. -/
def isDigitString (s : String) : Bool :=
  decide (s.length = 4) && s.toList.all fun c => c.isDigit

/-- What the minimax searches guarantee about their chosen guess `g` over
candidate list `cs` and evaluated sample: `g` is the first candidate or a
sampled guess; no sampled guess has a strictly smaller worst-case
partition; and if some sampled guess ties `g`'s worst case while being a
candidate, then `g` itself is a candidate. -/
def minimaxChoiceOK (cs sample : List Code) (g : Code) : Prop :=
  (cs.head? = some g ∨ g ∈ sample) ∧
    (∀ g' ∈ sample, worstCase g cs ≤ worstCase g' cs) ∧
    ((∃ g' ∈ sample, g' ∈ cs ∧ worstCase g' cs ≤ worstCase g cs) → g ∈ cs)

/-- Three permutations of one multiset, all sitting at odd positions of
`generateAllCodes` (their last digit is odd): a candidate list on which
the minimax tie-breaking never fires. -/
def cs3 : List Code :=
  [(1, 2, 4, 3), (2, 1, 4, 3), (4, 2, 1, 3)]

/-- A 600-candidate pool (used to exhibit the entropy-pool boundary). -/
def cs600 : List Code :=
  generateAllCodes.take 600

/-- Small concrete inputs for witnesses. -/
def csW : List Code :=
  [(0, 0, 0, 0), (1, 1, 1, 1), (0, 1, 0, 1)]

def allW : List Code :=
  [(0, 0, 0, 0), (1, 1, 1, 1), (0, 1, 0, 1), (2, 2, 2, 2)]

/-- Witness history: two monochromatic probes over distinct digits with
feedbacks summing to 4. -/
def histW : List GameRound :=
  [⟨(0, 0, 0, 0), some 1⟩, ⟨(1, 1, 1, 1), some 3⟩]

/-- Counterexample history: the same digit probed twice, feedbacks summing
to 4 while only two slots are actually pinned down. -/
def histBad : List GameRound :=
  [⟨(1, 1, 1, 1), some 2⟩, ⟨(1, 1, 1, 1), some 2⟩]

/-! # Theorems -/

theorem countDigit_eq_count (c : Code) (d : Digit) :
    countDigit c d = (codeDigits c).count d := by
  simp only [countDigit, codeDigits, List.count_cons, List.count_nil, beq_iff_eq]
  split_ifs <;> simp_all

theorem sum_countDigit (c : Code) :
    ∑ d : Digit, countDigit c d = 4 := by
  simp only [countDigit, Finset.sum_add_distrib, Finset.sum_ite_eq, Finset.mem_univ,
    if_true]

theorem computeFeedback_eq_sum (g t : Code) :
    computeFeedback g t = ∑ d : Digit, min (countDigit g d) (countDigit t d) := by
  rw [computeFeedback, Fin.sum_univ_def]

theorem computeFeedback_le_four (g t : Code) : computeFeedback g t ≤ 4 := by
  rw [computeFeedback_eq_sum]
  calc ∑ d : Digit, min (countDigit g d) (countDigit t d)
      ≤ ∑ d : Digit, countDigit g d :=
        Finset.sum_le_sum fun d _ => min_le_left _ _
    _ = 4 := sum_countDigit g

/-- C1: for all codes `g`, `t`, `computeFeedback g t` is the sum over digit
values of the minimum of the occurrence counts of that digit in `g` and in
`t`; the result is at most 4 (and at least 0, being a `Nat`); and on the
concrete pair guess `[4,5,2,7]`, target `[1,3,0,2]` the feedback is 1. -/
theorem computeFeedback_spec :
    (∀ g t : Code,
        computeFeedback g t =
          ∑ d : Digit, min ((codeDigits g).count d) ((codeDigits t).count d) ∧
        computeFeedback g t ≤ 4) ∧
      computeFeedback (4, 5, 2, 7) (1, 3, 0, 2) = 1 := by
  refine ⟨fun g t => ⟨?_, computeFeedback_le_four g t⟩, by decide⟩
  rw [computeFeedback_eq_sum]
  simp only [countDigit_eq_count]

/-- C2: `filterCandidates cs g f` is exactly the sublist of `cs` whose
members score feedback `f` against `g`; it never grows, and re-filtering
with the same pair is the identity. -/
theorem filterCandidates_spec (cs : List Code) (g : Code) (f : Nat) :
    filterCandidates cs g f = cs.filter (fun c => decide (computeFeedback g c = f)) ∧
      (∀ c : Code, c ∈ filterCandidates cs g f ↔ c ∈ cs ∧ computeFeedback g c = f) ∧
      (filterCandidates cs g f).length ≤ cs.length ∧
      filterCandidates (filterCandidates cs g f) g f = filterCandidates cs g f := by
  refine ⟨rfl, ?_, List.length_filter_le _ _, ?_⟩
  · intro c
    simp [filterCandidates]
  · simp [filterCandidates, List.filter_filter]

theorem poolSize_eq_length (l : List Code) : poolSize l = l.length := by
  suffices h : ∀ (l : List Code) (n : Nat), l.foldl (fun n _ => n + 1) n = n + l.length by
    simpa using h l 0
  intro l
  induction l with
  | nil => simp
  | cons c rest ih => intro n; simp [List.foldl_cons, ih]; omega

theorem lenBlock3 (a b c : Digit) :
    (List.map (fun d => ((a, b, c, d) : Code)) (List.finRange 10)).length = 10 := by
  simp

theorem lenBlock2 (a b : Digit) :
    ((List.finRange 10).flatMap fun c =>
      List.map (fun d => ((a, b, c, d) : Code)) (List.finRange 10)).length = 100 := by
  rw [List.length_flatMap]
  simp only [Function.comp_def, lenBlock3]
  simp [List.map_const', List.sum_replicate]

theorem lenBlock1 (a : Digit) :
    ((List.finRange 10).flatMap fun b => (List.finRange 10).flatMap fun c =>
      List.map (fun d => ((a, b, c, d) : Code)) (List.finRange 10)).length = 1000 := by
  rw [List.length_flatMap]
  simp only [Function.comp_def, lenBlock2]
  simp [List.map_const', List.sum_replicate]

theorem generateAllCodes_length : generateAllCodes.length = 10000 := by
  rw [generateAllCodes, List.length_flatMap]
  simp only [Function.comp_def, lenBlock1]
  simp [List.map_const', List.sum_replicate]

/-- Indexing a `flatMap` whose chunks all have length `L` reduces to
indexing some chunk at the offset `i % L`. -/
theorem flatMap_uniform_getElem {α : Type} (l : List α) (f : α → List Code) (L : Nat)
    (hL : ∀ a, (f a).length = L) :
    ∀ (i : Nat) (c : Code), (l.flatMap f)[i]? = some c → ∃ a ∈ l, (f a)[i % L]? = some c := by
  induction l with
  | nil => intro i c h; simp at h
  | cons a t ih =>
    intro i c h
    rw [List.flatMap_cons] at h
    rcases Nat.lt_or_ge i L with hi | hi
    · rw [List.getElem?_append_left (by rw [hL a]; exact hi)] at h
      exact ⟨a, List.mem_cons_self a t, by rwa [Nat.mod_eq_of_lt hi]⟩
    · rw [List.getElem?_append_right (by rw [hL a]; exact hi)] at h
      rw [hL a] at h
      obtain ⟨b, hb, hg⟩ := ih (i - L) c h
      refine ⟨b, List.mem_cons_of_mem a hb, ?_⟩
      have : i = (i - L) + L := by omega
      rwa [this, Nat.add_mod_right]

/-- The code stored at position `i` of `generateAllCodes` has last digit
`i % 10` (the innermost generation loop cycles through the last digit). -/
theorem generateAllCodes_last_digit (i : Nat) (c : Code) (h : generateAllCodes[i]? = some c) :
    (c.2.2.2 : Nat) = i % 10 := by
  obtain ⟨a, _, h1⟩ := flatMap_uniform_getElem (List.finRange 10) _ 1000
    (fun a => lenBlock1 a) i c h
  obtain ⟨b, _, h2⟩ := flatMap_uniform_getElem (List.finRange 10) _ 100
    (fun b => lenBlock2 a b) (i % 1000) c h1
  rw [Nat.mod_mod_of_dvd i (by norm_num : (100 : Nat) ∣ 1000)] at h2
  obtain ⟨e, _, h3⟩ := flatMap_uniform_getElem (List.finRange 10) _ 10
    (fun e => lenBlock3 a b e) (i % 100) c h2
  rw [Nat.mod_mod_of_dvd i (by norm_num : (10 : Nat) ∣ 100)] at h3
  rw [List.getElem?_map] at h3
  have hlt : i % 10 < (List.finRange 10).length := by
    rw [List.length_finRange]; omega
  rw [List.getElem?_eq_getElem hlt] at h3
  rw [Option.map_some'] at h3
  have h4 : c.2.2.2 = (List.finRange 10).get ⟨i % 10, hlt⟩ := by
    rw [← Option.some_inj.mp h3]
    rfl
  rw [h4, List.get_finRange]

/-- Every member of a strided sample (with positive step) sits in the
pool at an index that is a multiple of the step. -/
theorem stridedSampleAux_mem (step : Nat) (hstep : 1 ≤ step) :
    ∀ (fuel : Nat) (pool : List Code), pool.length ≤ fuel →
      ∀ x ∈ stridedSampleAux step fuel pool, ∃ k, pool[k * step]? = some x := by
  intro fuel
  induction fuel with
  | zero => intro pool _ x hx; simp [stridedSampleAux] at hx
  | succ f ih =>
    intro pool hlen x hx
    cases pool with
    | nil => simp [stridedSampleAux] at hx
    | cons c rest =>
      rw [stridedSampleAux] at hx
      rcases List.mem_cons.mp hx with hx | hx
      · exact ⟨0, by simp [hx]⟩
      · have hlen' : (rest.drop (step - 1)).length ≤ f := by
          rw [List.length_drop]
          simp only [List.length_cons] at hlen
          omega
        obtain ⟨k, hk⟩ := ih (rest.drop (step - 1)) hlen' x hx
        rw [List.getElem?_drop] at hk
        refine ⟨k + 1, ?_⟩
        have hidx : (k + 1) * step = (step - 1 + k * step) + 1 := by
          cases step with
          | zero => omega
          | succ s => ring_nf; omega
        rw [hidx, List.getElem?_cons_succ]
        exact hk

theorem stridedSample_mem (pool : List Code) (step : Nat) (hstep : 1 ≤ step) :
    ∀ x ∈ stridedSample pool step, ∃ k, pool[k * step]? = some x := by
  intro x hx
  exact stridedSampleAux_mem step hstep (poolSize pool) pool
    (by rw [poolSize_eq_length]) x hx

theorem foldl_max_le (l : List Nat) (a n : Nat) (ha : a ≤ n) (h : ∀ x ∈ l, x ≤ n) :
    l.foldl max a ≤ n := by
  induction l generalizing a with
  | nil => exact ha
  | cons x rest ih =>
    rw [List.foldl_cons]
    exact ih (max a x) (max_le ha (h x (List.mem_cons_self x rest)))
      fun y hy => h y (List.mem_cons_of_mem x hy)

theorem partitionSize_le_length (g : Code) (cs : List Code) (fb : Nat) :
    partitionSize g cs fb ≤ cs.length := by
  calc partitionSize g cs fb ≤ (feedbackList g cs).length := List.count_le_length _ _
    _ = cs.length := by rw [feedbackList, List.length_map]

theorem worstCase_le_length (g : Code) (cs : List Code) : worstCase g cs ≤ cs.length := by
  refine foldl_max_le _ _ _ (Nat.zero_le _) ?_
  intro x hx
  obtain ⟨fb, _, rfl⟩ := List.mem_map.mp hx
  exact partitionSize_le_length g cs fb

theorem minimaxStep_bw_le (cs : List Code) (b : Code × Nat × Bool) (g : Code) :
    (minimaxStep cs b g).2.1 ≤ b.2.1 := by
  simp only [minimaxStep]
  split_ifs with h
  · rcases h with h | ⟨h, _⟩ <;> simp <;> omega
  · exact Nat.le_refl _

theorem minimaxStep_bw_le_w (cs : List Code) (b : Code × Nat × Bool) (g : Code) :
    (minimaxStep cs b g).2.1 ≤ worstCase g cs := by
  simp only [minimaxStep]
  split_ifs with h
  · simp
  · push_neg at h
    exact h.1

theorem minimaxFold_bw_mono (cs : List Code) (sample : List Code) :
    ∀ b : Code × Nat × Bool, (minimaxFold cs b sample).2.1 ≤ b.2.1 := by
  induction sample with
  | nil => intro b; exact Nat.le_refl _
  | cons g rest ih =>
    intro b
    calc (minimaxFold cs b (g :: rest)).2.1
        = (minimaxFold cs (minimaxStep cs b g) rest).2.1 := rfl
      _ ≤ (minimaxStep cs b g).2.1 := ih _
      _ ≤ b.2.1 := minimaxStep_bw_le cs b g

theorem minimaxFold_bw_le_of_mem (cs : List Code) (sample : List Code) :
    ∀ (b : Code × Nat × Bool), ∀ g ∈ sample,
      (minimaxFold cs b sample).2.1 ≤ worstCase g cs := by
  induction sample with
  | nil => intro b g hg; simp at hg
  | cons g' rest ih =>
    intro b g hg
    rcases List.mem_cons.mp hg with rfl | hg
    · calc (minimaxFold cs b (g :: rest)).2.1
          = (minimaxFold cs (minimaxStep cs b g) rest).2.1 := rfl
        _ ≤ (minimaxStep cs b g).2.1 := minimaxFold_bw_mono cs rest _
        _ ≤ worstCase g cs := minimaxStep_bw_le_w cs b g
    · exact ih (minimaxStep cs b g') g hg

theorem minimaxStep_fst (cs : List Code) (b : Code × Nat × Bool) (g : Code) :
    (minimaxStep cs b g).1 = g ∨ minimaxStep cs b g = b := by
  simp only [minimaxStep]
  split_ifs with h
  · left; rfl
  · right; rfl

theorem minimaxFold_fst_mem (cs : List Code) (sample : List Code) :
    ∀ b : Code × Nat × Bool, (minimaxFold cs b sample).1 = b.1 ∨
      (minimaxFold cs b sample).1 ∈ sample := by
  induction sample with
  | nil => intro b; left; rfl
  | cons g rest ih =>
    intro b
    have hrec : (minimaxFold cs b (g :: rest)).1 = (minimaxFold cs (minimaxStep cs b g) rest).1 :=
      rfl
    rcases ih (minimaxStep cs b g) with h | h
    · rcases minimaxStep_fst cs b g with h' | h'
      · right; rw [hrec, h, h']; exact List.mem_cons_self g rest
      · left; rw [hrec, h, h']
    · right
      rw [hrec]
      exact List.mem_cons_of_mem g h

theorem minimaxStep_inv (cs : List Code) (b : Code × Nat × Bool) (g : Code)
    (h1 : worstCase b.1 cs ≤ b.2.1) (h2 : b.2.2 = true → b.1 ∈ cs) :
    worstCase (minimaxStep cs b g).1 cs ≤ (minimaxStep cs b g).2.1 ∧
      ((minimaxStep cs b g).2.2 = true → (minimaxStep cs b g).1 ∈ cs) := by
  simp only [minimaxStep]
  split_ifs with h
  · refine ⟨Nat.le_refl _, ?_⟩
    intro hic
    simpa using of_decide_eq_true hic
  · exact ⟨h1, h2⟩

theorem minimaxFold_inv (cs : List Code) (sample : List Code) :
    ∀ b : Code × Nat × Bool, worstCase b.1 cs ≤ b.2.1 → (b.2.2 = true → b.1 ∈ cs) →
      worstCase (minimaxFold cs b sample).1 cs ≤ (minimaxFold cs b sample).2.1 ∧
        ((minimaxFold cs b sample).2.2 = true → (minimaxFold cs b sample).1 ∈ cs) := by
  induction sample with
  | nil => intro b h1 h2; exact ⟨h1, h2⟩
  | cons g rest ih =>
    intro b h1 h2
    obtain ⟨h1', h2'⟩ := minimaxStep_inv cs b g h1 h2
    exact ih (minimaxStep cs b g) h1' h2'

theorem minimaxStep_Q (cs : List Code) (b : Code × Nat × Bool) (g : Code) (v : Nat)
    (h1 : b.2.1 ≤ v) (h2 : b.2.1 = v → b.2.2 = true) :
    (minimaxStep cs b g).2.1 ≤ v ∧ ((minimaxStep cs b g).2.1 = v → (minimaxStep cs b g).2.2 = true) := by
  simp only [minimaxStep]
  split_ifs with h
  · rcases h with h | ⟨heq, hic, _⟩
    · constructor
      · simp only []
        omega
      · intro hv
        simp only [] at hv
        omega
    · constructor
      · simp only []
        omega
      · intro _
        simpa using hic
  · exact ⟨h1, h2⟩

theorem minimaxFold_Q (cs : List Code) (sample : List Code) (v : Nat) :
    ∀ b : Code × Nat × Bool, b.2.1 ≤ v → (b.2.1 = v → b.2.2 = true) →
      (minimaxFold cs b sample).2.1 ≤ v ∧
        ((minimaxFold cs b sample).2.1 = v → (minimaxFold cs b sample).2.2 = true) := by
  induction sample with
  | nil => intro b h1 h2; exact ⟨h1, h2⟩
  | cons g rest ih =>
    intro b h1 h2
    obtain ⟨h1', h2'⟩ := minimaxStep_Q cs b g v h1 h2
    exact ih (minimaxStep cs b g) h1' h2'

theorem minimaxFold_tieQ (cs : List Code) (sample : List Code) :
    ∀ (b : Code × Nat × Bool) (gc : Code), gc ∈ sample → gc ∈ cs →
      (minimaxFold cs b sample).2.1 ≤ worstCase gc cs ∧
        ((minimaxFold cs b sample).2.1 = worstCase gc cs →
          (minimaxFold cs b sample).2.2 = true) := by
  induction sample with
  | nil => intro b gc hmem; simp at hmem
  | cons g rest ih =>
    intro b gc hmem hcs
    rcases List.mem_cons.mp hmem with rfl | hmem
    · -- after processing `gc` itself, the Q-invariant at level `worstCase gc cs` holds
      have hq : (minimaxStep cs b gc).2.1 ≤ worstCase gc cs ∧
          ((minimaxStep cs b gc).2.1 = worstCase gc cs → (minimaxStep cs b gc).2.2 = true) := by
        simp only [minimaxStep]
        split_ifs with h
        · exact ⟨Nat.le_refl _, fun _ => by simpa using hcs⟩
        · push_neg at h
          have hic : decide (gc ∈ cs) = true := by simpa using hcs
          refine ⟨h.1, fun hv => ?_⟩
          have := h.2 hv.symm hic
          simpa using this
      exact minimaxFold_Q cs rest (worstCase gc cs) (minimaxStep cs b gc) hq.1 hq.2
    · exact ih (minimaxStep cs b g) gc hmem hcs

theorem minimaxChoiceOK_fold (cs : List Code) (c0 : Code) (hc0 : cs.head? = some c0)
    (sample : List Code) (b0 : Bool) :
    minimaxChoiceOK cs sample (minimaxFold cs (c0, cs.length, b0) sample).1 := by
  have hc0m : c0 ∈ cs := by
    cases cs with
    | nil => simp at hc0
    | cons a t =>
      simp only [List.head?_cons, Option.some_inj] at hc0
      rw [← hc0]
      exact List.mem_cons_self a t
  have hinv := minimaxFold_inv cs sample (c0, cs.length, b0)
    (worstCase_le_length c0 cs) (fun _ => hc0m)
  refine ⟨?_, ?_, ?_⟩
  · rcases minimaxFold_fst_mem cs sample (c0, cs.length, b0) with h | h
    · left; rw [hc0, h]
    · right; exact h
  · intro g' hg'
    calc worstCase (minimaxFold cs (c0, cs.length, b0) sample).1 cs
        ≤ (minimaxFold cs (c0, cs.length, b0) sample).2.1 := hinv.1
      _ ≤ worstCase g' cs := minimaxFold_bw_le_of_mem cs sample _ g' hg'
  · rintro ⟨g', hg'mem, hg'cs, hle⟩
    obtain ⟨hq1, hq2⟩ := minimaxFold_tieQ cs sample (c0, cs.length, b0) g' hg'mem hg'cs
    have heq : (minimaxFold cs (c0, cs.length, b0) sample).2.1 = worstCase g' cs := by
      have h1 : worstCase (minimaxFold cs (c0, cs.length, b0) sample).1 cs ≤
          (minimaxFold cs (c0, cs.length, b0) sample).2.1 := hinv.1
      omega
    exact hinv.2 (hq2 heq)

/-- Unfolding of `minimaxGuess` on lists with more than two candidates. -/
theorem minimaxGuess_eq_fold (cs all : List Code) (r : Nat) (c0 : Code) (tl : List Code)
    (hcs : cs = c0 :: tl) (h : 2 < cs.length) :
    minimaxGuess cs all r =
      some (minimaxFold cs (c0, cs.length, false) (minimaxSample cs all)).1 := by
  subst hcs
  rw [minimaxGuess]
  simp only [List.head?_cons, Option.map_some']
  rw [if_neg (by omega)]

theorem smartMinimaxPhase_eq_fold (cs all : List Code) (c0 : Code) (tl : List Code)
    (hcs : cs = c0 :: tl) :
    smartMinimaxPhase cs all =
      (minimaxFold cs (c0, cs.length, true) (smartMinimaxSample cs all)).1 := by
  subst hcs
  rw [smartMinimaxPhase]
  simp

/-! Dispatch lemmas for `getSmartGuess` and `hybridGuess`. -/

theorem getSmartGuess_probe (cs all : List Code) (r : Nat) (hr : r < 3)
    (hn : cs.length > 5000) :
    getSmartGuess cs all r = hybridProbes.getD r default0 := by
  rw [getSmartGuess]
  rw [if_neg (by omega), if_neg (by omega), if_pos ⟨hr, hn⟩]

theorem getSmartGuess_minimax (cs all : List Code) (r : Nat) (h3 : 2 < cs.length)
    (h200 : cs.length ≤ 200) :
    getSmartGuess cs all r = smartMinimaxPhase cs all := by
  rw [getSmartGuess]
  rw [if_neg (by omega), if_neg (by omega),
    if_neg (by rintro ⟨_, hh⟩; omega), if_pos h200]

theorem getSmartGuess_entropyMid (cs all : List Code) (r : Nat) (h200 : 200 < cs.length)
    (h1000 : cs.length ≤ 1000) :
    getSmartGuess cs all r = smartEntropyMidPhase cs all := by
  rw [getSmartGuess]
  rw [if_neg (by omega), if_neg (by omega),
    if_neg (by rintro ⟨_, hh⟩; omega), if_neg (by omega), if_pos h1000]

theorem getSmartGuess_entropyLarge (cs all : List Code) (r : Nat) (h1000 : 1000 < cs.length)
    (hpr : 3 ≤ r ∨ cs.length ≤ 5000) :
    getSmartGuess cs all r = smartEntropyLargePhase cs := by
  rw [getSmartGuess]
  rw [if_neg (by omega), if_neg (by omega),
    if_neg (by rintro ⟨hr, hh⟩; rcases hpr with h | h <;> omega),
    if_neg (by omega), if_neg (by omega)]

theorem hybridGuess_probe (cs all : List Code) (r : Nat) (hr : r < 3)
    (hn : cs.length > 5000) :
    hybridGuess cs all r = hybridProbes.get? r := by
  rw [hybridGuess]
  rw [if_pos ⟨hr, hn⟩]

theorem hybridGuess_minimax (cs all : List Code) (r : Nat) (h200 : cs.length ≤ 200) :
    hybridGuess cs all r = minimaxGuess cs all r := by
  rw [hybridGuess]
  rw [if_neg (by rintro ⟨_, hh⟩; omega), if_pos h200]

theorem hybridGuess_entropy (cs all : List Code) (r : Nat) (h200 : 200 < cs.length)
    (hpr : 3 ≤ r ∨ cs.length ≤ 5000) :
    hybridGuess cs all r = maxEntropyGuess cs all r := by
  rw [hybridGuess]
  rw [if_neg (by rintro ⟨hr, hh⟩; rcases hpr with h | h <;> omega), if_neg (by omega)]

theorem cs600_length : cs600.length = 600 := by
  rw [cs600, List.length_take, generateAllCodes_length]
  norm_num

/-- C3 (amended): the hybrid dispatch.  Rounds 0-2 with a pool above 5000
give the fixed probes; a pool of at most 200 gives minimax; above 200 the
strategy is maximum entropy, whose search pool is the full space exactly
when the candidate pool is at most 500 and the candidate list alone
beyond that (`getSmartGuess` additionally splits the entropy phase at
1000 candidates, with evaluation limits 3000/2000, both candidate-only
sampling above 500). -/
theorem hybrid_dispatch_spec :
    (∀ (cs all : List Code) (r : Nat), r < 3 → cs.length > 5000 →
        hybridGuess cs all r = hybridProbes.get? r ∧
          getSmartGuess cs all r = hybridProbes.getD r default0) ∧
      (∀ (cs all : List Code) (r : Nat), cs.length ≤ 200 →
        hybridGuess cs all r = minimaxGuess cs all r) ∧
      (∀ (cs all : List Code) (r : Nat), 2 < cs.length → cs.length ≤ 200 →
        getSmartGuess cs all r = smartMinimaxPhase cs all) ∧
      (∀ (cs all : List Code) (r : Nat), 200 < cs.length → (3 ≤ r ∨ cs.length ≤ 5000) →
        hybridGuess cs all r = maxEntropyGuess cs all r) ∧
      (∀ (cs all : List Code) (r : Nat), 200 < cs.length → cs.length ≤ 1000 →
        getSmartGuess cs all r = smartEntropyMidPhase cs all) ∧
      (∀ (cs all : List Code) (r : Nat), 1000 < cs.length → (3 ≤ r ∨ cs.length ≤ 5000) →
        getSmartGuess cs all r = smartEntropyLargePhase cs) ∧
      (∀ cs all : List Code, cs.length ≤ 500 → entropySearchPool cs all = all) ∧
      (∀ cs all : List Code, 500 < cs.length → entropySearchPool cs all = cs) := by
  refine ⟨fun cs all r hr hn => ⟨hybridGuess_probe cs all r hr hn,
      getSmartGuess_probe cs all r hr hn⟩,
    fun cs all r h => hybridGuess_minimax cs all r h,
    fun cs all r h3 h => getSmartGuess_minimax cs all r h3 h,
    fun cs all r h hpr => hybridGuess_entropy cs all r h hpr,
    fun cs all r h h1000 => getSmartGuess_entropyMid cs all r h h1000,
    fun cs all r h hpr => getSmartGuess_entropyLarge cs all r h hpr,
    fun cs all h => ?_, fun cs all h => ?_⟩
  · rw [entropySearchPool, if_pos h]
  · rw [entropySearchPool, if_neg (by omega)]

/-- C3 counterexample: at a pool of 600 candidates — squarely between 200
and 1000 — the entropy search pool is the candidate list, not the full
10,000-code space. -/
theorem entropyPool_counterexample :
    200 < cs600.length ∧ cs600.length ≤ 1000 ∧
      entropySearchPool cs600 generateAllCodes ≠ generateAllCodes := by
  refine ⟨by rw [cs600_length]; omega, by rw [cs600_length]; omega, ?_⟩
  rw [entropySearchPool, if_neg (by rw [cs600_length]; omega)]
  intro hEq
  have hlen := congrArg List.length hEq
  rw [cs600_length, generateAllCodes_length] at hlen
  omega

theorem hybrid_dispatch_witness :
    (hybridGuess generateAllCodes generateAllCodes 0 = hybridProbes.get? 0 ∧
        getSmartGuess generateAllCodes generateAllCodes 0 = hybridProbes.getD 0 default0) ∧
      hybridGuess csW allW 1 = minimaxGuess csW allW 1 ∧
      getSmartGuess csW allW 1 = smartMinimaxPhase csW allW ∧
      hybridGuess cs600 generateAllCodes 5 = maxEntropyGuess cs600 generateAllCodes 5 ∧
      getSmartGuess cs600 generateAllCodes 5 = smartEntropyMidPhase cs600 generateAllCodes ∧
      getSmartGuess generateAllCodes generateAllCodes 5 =
        smartEntropyLargePhase generateAllCodes ∧
      entropySearchPool csW allW = allW ∧
      entropySearchPool cs600 generateAllCodes = cs600 :=
  ⟨hybrid_dispatch_spec.1 generateAllCodes generateAllCodes 0 (by omega)
      (by rw [generateAllCodes_length]; omega),
    hybrid_dispatch_spec.2.1 csW allW 1 (by decide),
    hybrid_dispatch_spec.2.2.1 csW allW 1 (by decide) (by decide),
    hybrid_dispatch_spec.2.2.2.1 cs600 generateAllCodes 5
      (by rw [cs600_length]; omega) (Or.inl (by omega)),
    hybrid_dispatch_spec.2.2.2.2.1 cs600 generateAllCodes 5
      (by rw [cs600_length]; omega) (by rw [cs600_length]; omega),
    hybrid_dispatch_spec.2.2.2.2.2.1 generateAllCodes generateAllCodes 5
      (by rw [generateAllCodes_length]; omega) (Or.inl (by omega)),
    hybrid_dispatch_spec.2.2.2.2.2.2.1 csW allW (by decide),
    hybrid_dispatch_spec.2.2.2.2.2.2.2 cs600 generateAllCodes
      (by rw [cs600_length]; omega)⟩

/-- C4 (amended): the minimax searches return either the first candidate
or a sampled guess, never beaten (on worst-case partition size) by any
sampled guess, and tie-breaking prefers candidate members. -/
theorem minimax_selection_spec :
    (∀ (cs all : List Code) (r : Nat), 2 < cs.length →
        ∃ g, minimaxGuess cs all r = some g ∧ minimaxChoiceOK cs (minimaxSample cs all) g) ∧
      (∀ (cs all : List Code) (r : Nat), 2 < cs.length → cs.length ≤ 200 →
        getSmartGuess cs all r = smartMinimaxPhase cs all ∧
          minimaxChoiceOK cs (smartMinimaxSample cs all) (smartMinimaxPhase cs all)) := by
  constructor
  · intro cs all r h
    obtain ⟨c0, tl, rfl⟩ : ∃ c0 tl, cs = c0 :: tl := by
      cases cs with
      | nil => simp at h
      | cons a t => exact ⟨a, t, rfl⟩
    exact ⟨_, minimaxGuess_eq_fold _ all r c0 tl rfl h,
      minimaxChoiceOK_fold _ c0 (List.head?_cons) _ false⟩
  · intro cs all r h3 h200
    obtain ⟨c0, tl, rfl⟩ : ∃ c0 tl, cs = c0 :: tl := by
      cases cs with
      | nil => simp at h3
      | cons a t => exact ⟨a, t, rfl⟩
    refine ⟨getSmartGuess_minimax _ all r h3 h200, ?_⟩
    rw [smartMinimaxPhase_eq_fold _ all c0 tl rfl]
    exact minimaxChoiceOK_fold _ c0 (List.head?_cons) _ true

theorem minimax_selection_witness :
    2 < csW.length ∧
      (∃ g, minimaxGuess csW allW 0 = some g ∧ minimaxChoiceOK csW (minimaxSample csW allW) g) ∧
      (getSmartGuess csW allW 0 = smartMinimaxPhase csW allW ∧
        minimaxChoiceOK csW (smartMinimaxSample csW allW) (smartMinimaxPhase csW allW)) :=
  ⟨by decide, minimax_selection_spec.1 csW allW 0 (by decide),
    minimax_selection_spec.2 csW allW 0 (by decide) (by decide)⟩

theorem computeFeedback_congr_right (g t t' : Code)
    (h : ∀ d, countDigit t d = countDigit t' d) :
    computeFeedback g t = computeFeedback g t' := by
  rw [computeFeedback, computeFeedback]
  congr 1
  exact List.map_congr_left fun d _ => by rw [h d]

theorem cs3_feedbackList (g : Code) :
    feedbackList g cs3 = [computeFeedback g (1, 2, 4, 3), computeFeedback g (1, 2, 4, 3),
      computeFeedback g (1, 2, 4, 3)] := by
  have h1 : computeFeedback g (2, 1, 4, 3) = computeFeedback g (1, 2, 4, 3) :=
    computeFeedback_congr_right g _ _ (by decide)
  have h2 : computeFeedback g (4, 2, 1, 3) = computeFeedback g (1, 2, 4, 3) :=
    computeFeedback_congr_right g _ _ (by decide)
  rw [feedbackList, cs3]
  simp [h1, h2]

theorem count3_max (f : Nat) (hf : f ≤ 4) :
    ((List.range 5).map fun fb => List.count fb [f, f, f]).foldl max 0 = 3 := by
  interval_cases f <;> decide

/-- Any guess lumps all of `cs3` — three permutations of one multiset —
into a single partition of size 3. -/
theorem worstCase_cs3 (g : Code) : worstCase g cs3 = 3 := by
  rw [worstCase]
  have hps : partitionSize g cs3 = fun fb => List.count fb
      [computeFeedback g (1, 2, 4, 3), computeFeedback g (1, 2, 4, 3),
        computeFeedback g (1, 2, 4, 3)] := by
    funext fb
    rw [partitionSize, cs3_feedbackList g]
  rw [hps]
  exact count3_max _ (computeFeedback_le_four g _)

theorem minimaxSample_cs3 :
    minimaxSample cs3 generateAllCodes = stridedSample generateAllCodes 2 := by
  rw [minimaxSample, minimaxSearchPool]
  have h50 : cs3.length ≤ 50 := by decide
  rw [if_pos h50, if_pos h50]
  rw [poolSize_eq_length, generateAllCodes_length]
  norm_num

/-- Every element of the evaluated sample sits at an even position of
`generateAllCodes`, hence has an even last digit; the members of `cs3`
end in 3. -/
theorem sample_last_digit_even (x : Code) (hx : x ∈ stridedSample generateAllCodes 2) :
    2 ∣ (x.2.2.2 : Nat) := by
  obtain ⟨k, hk⟩ := stridedSample_mem generateAllCodes 2 (by omega) x hx
  rw [generateAllCodes_last_digit (k * 2) x hk]
  rw [Nat.dvd_mod_iff (by norm_num : (2 : Nat) ∣ 10)]
  exact ⟨k, by ring⟩

theorem sample_not_mem_cs3 (x : Code) (hx : x ∈ stridedSample generateAllCodes 2) :
    x ∉ cs3 := by
  intro hmem
  have heven := sample_last_digit_even x hx
  have h3 : (x.2.2.2 : Nat) = 3 := by
    rw [cs3] at hmem
    rcases List.mem_cons.mp hmem with rfl | hmem
    · rfl
    rcases List.mem_cons.mp hmem with rfl | hmem
    · rfl
    rcases List.mem_cons.mp hmem with rfl | hmem
    · rfl
    · simp at hmem
  rw [h3] at heven
  omega

/-- A minimax fold on which no iteration fires never moves off the
initial state. -/
theorem minimaxFold_id (cs : List Code) (x : Code) (sample : List Code)
    (h : ∀ g ∈ sample, worstCase g cs = cs.length ∧ g ∉ cs) :
    minimaxFold cs (x, cs.length, false) sample = (x, cs.length, false) := by
  induction sample with
  | nil => rfl
  | cons g rest ih =>
    have hstep : minimaxStep cs (x, cs.length, false) g = (x, cs.length, false) := by
      obtain ⟨hw, hnc⟩ := h g (List.mem_cons_self g rest)
      simp only [minimaxStep]
      rw [if_neg]
      rintro (hlt | ⟨_, hic, _⟩)
      · rw [hw] at hlt
        omega
      · exact hnc (of_decide_eq_true hic)
    calc minimaxFold cs (x, cs.length, false) (g :: rest)
        = minimaxFold cs (minimaxStep cs (x, cs.length, false) g) rest := rfl
      _ = minimaxFold cs (x, cs.length, false) rest := by rw [hstep]
      _ = (x, cs.length, false) := ih fun g' hg' => h g' (List.mem_cons_of_mem g hg')

/-- C4 counterexample: on the candidate list `cs3` (three permutations of
the digits 1,2,3,4, each at an odd position of the full space) with the
repository's full 10,000-code space, `minimaxGuess` returns the first
candidate `[1,2,4,3]`, which is not a member of its strided search sample
(the sample holds exactly the even positions of the space). -/
theorem minimax_offSample_counterexample :
    2 < cs3.length ∧
      minimaxGuess cs3 generateAllCodes 5 = some (1, 2, 4, 3) ∧
      (1, 2, 4, 3) ∉ minimaxSample cs3 generateAllCodes := by
  have hlen : cs3.length = 3 := by decide
  have hsample : ∀ g ∈ minimaxSample cs3 generateAllCodes,
      worstCase g cs3 = cs3.length ∧ g ∉ cs3 := by
    intro g hg
    rw [minimaxSample_cs3] at hg
    exact ⟨by rw [worstCase_cs3 g, hlen], sample_not_mem_cs3 g hg⟩
  refine ⟨by omega, ?_, ?_⟩
  · rw [minimaxGuess_eq_fold cs3 generateAllCodes 5 (1, 2, 4, 3)
      [(2, 1, 4, 3), (4, 2, 1, 3)] rfl (by omega)]
    rw [minimaxFold_id cs3 (1, 2, 4, 3) (minimaxSample cs3 generateAllCodes) hsample]
  · intro hmem
    rw [minimaxSample_cs3] at hmem
    exact sample_not_mem_cs3 _ hmem (by decide)

theorem probeSequence_isSome (r : Nat) (h : r < 5) : (probeSequence.get? r).isSome := by
  interval_cases r <;> rfl

theorem hybridProbes_isSome (r : Nat) (h : r < 3) : (hybridProbes.get? r).isSome := by
  interval_cases r <;> rfl

theorem frequencyProbeGuess_total (cs all : List Code) (r : Nat) (h : cs ≠ []) :
    (frequencyProbeGuess cs all r).isSome := by
  obtain ⟨c0, tl, rfl⟩ : ∃ c0 tl, cs = c0 :: tl := by
    cases cs with
    | nil => exact absurd rfl h
    | cons a t => exact ⟨a, t, rfl⟩
  rw [frequencyProbeGuess]
  split_ifs with h1 h2
  · exact probeSequence_isSome r h1.1
  · simp
  · simp

theorem maxEntropyGuess_total (cs all : List Code) (r : Nat) (h : cs ≠ []) :
    (maxEntropyGuess cs all r).isSome := by
  obtain ⟨c0, tl, rfl⟩ : ∃ c0 tl, cs = c0 :: tl := by
    cases cs with
    | nil => exact absurd rfl h
    | cons a t => exact ⟨a, t, rfl⟩
  rw [maxEntropyGuess]
  split_ifs <;> simp

theorem minimaxGuess_total (cs all : List Code) (r : Nat) (h : cs ≠ []) :
    (minimaxGuess cs all r).isSome := by
  obtain ⟨c0, tl, rfl⟩ : ∃ c0 tl, cs = c0 :: tl := by
    cases cs with
    | nil => exact absurd rfl h
    | cons a t => exact ⟨a, t, rfl⟩
  rw [minimaxGuess]
  split_ifs with h1
  · simp
  · simp

theorem hybridGuess_total (cs all : List Code) (r : Nat) (h : cs ≠ []) :
    (hybridGuess cs all r).isSome := by
  rw [hybridGuess]
  split_ifs with h1 h2
  · exact hybridProbes_isSome r h1.1
  · exact minimaxGuess_total cs all r h
  · exact maxEntropyGuess_total cs all r h

theorem getGuess_total (s : StrategyName) (cs all : List Code) (r : Nat) (h : cs ≠ []) :
    (getGuess s cs all r).isSome := by
  cases s
  · exact frequencyProbeGuess_total cs all r h
  · exact maxEntropyGuess_total cs all r h
  · exact minimaxGuess_total cs all r h
  · exact hybridGuess_total cs all r h

theorem getGuess_single (s : StrategyName) (c : Code) (all : List Code) (r : Nat) :
    getGuess s [c] all r = some c := by
  have hp : ¬(r < 5 ∧ ([c] : List Code).length > 100) := by
    rintro ⟨_, hh⟩
    simp at hh
  have hh3 : ¬(r < 3 ∧ ([c] : List Code).length > 5000) := by
    rintro ⟨_, hh⟩
    simp at hh
  cases s
  · rw [getGuess, frequencyProbeGuess, if_neg hp, if_pos (by simp)]
    rfl
  · rw [getGuess, maxEntropyGuess, if_pos (by simp)]
    rfl
  · rw [getGuess, minimaxGuess, if_pos (by simp)]
    rfl
  · rw [getGuess, hybridGuess, if_neg hh3, if_pos (by simp), minimaxGuess,
      if_pos (by simp)]
    rfl

theorem getGuess_pair (s : StrategyName) (c c' : Code) (all : List Code) (r : Nat) :
    getGuess s [c, c'] all r = some c := by
  have hp : ¬(r < 5 ∧ ([c, c'] : List Code).length > 100) := by
    rintro ⟨_, hh⟩
    simp at hh
  have hh3 : ¬(r < 3 ∧ ([c, c'] : List Code).length > 5000) := by
    rintro ⟨_, hh⟩
    simp at hh
  cases s
  · rw [getGuess, frequencyProbeGuess, if_neg hp, if_pos (by simp)]
    rfl
  · rw [getGuess, maxEntropyGuess, if_pos (by simp)]
    rfl
  · rw [getGuess, minimaxGuess, if_pos (by simp)]
    rfl
  · rw [getGuess, hybridGuess, if_neg hh3, if_pos (by simp), minimaxGuess,
      if_pos (by simp)]
    rfl

/-- C6 (amended): every strategy yields a concrete code on every
*nonempty* candidate list — with exactly one candidate it returns that
candidate, with two it returns the first, for every round index —
and `getSmartGuess` also covers the empty list via its `|| [0,0,0,0]`
fallback.  (The four benchmark strategies return `undefined` on an empty
list; see the counterexample.) -/
theorem strategy_totality_spec :
    (∀ (s : StrategyName) (cs all : List Code) (r : Nat), cs ≠ [] →
        (getGuess s cs all r).isSome) ∧
      (∀ (s : StrategyName) (c : Code) (all : List Code) (r : Nat),
        getGuess s [c] all r = some c) ∧
      (∀ (s : StrategyName) (c c' : Code) (all : List Code) (r : Nat),
        getGuess s [c, c'] all r = some c) ∧
      (∀ (all : List Code) (r : Nat), getSmartGuess [] all r = default0) ∧
      (∀ (c : Code) (all : List Code) (r : Nat), getSmartGuess [c] all r = c) ∧
      (∀ (c c' : Code) (all : List Code) (r : Nat), getSmartGuess [c, c'] all r = c) := by
  refine ⟨getGuess_total, getGuess_single, getGuess_pair, ?_, ?_, ?_⟩
  · intro all r
    rw [getSmartGuess, if_pos (by simp)]
    rfl
  · intro c all r
    rw [getSmartGuess, if_pos (by simp)]
    rfl
  · intro c c' all r
    rw [getSmartGuess, if_neg (by simp), if_pos (by simp)]
    rfl

/-- C6 counterexample: on an empty candidate list all four benchmark
strategies return no code at all (`candidates[0]` is `undefined`). -/
theorem strategy_empty_counterexample :
    getGuess .hybrid [] [] 0 = none ∧ getGuess .frequencyProbe [] [] 7 = none ∧
      getGuess .maxEntropy [] [] 0 = none ∧ getGuess .minimax [] [] 0 = none := by
  refine ⟨rfl, rfl, rfl, rfl⟩

theorem strategy_totality_witness :
    csW ≠ [] ∧ (getGuess .hybrid csW allW 0).isSome ∧
      getGuess .minimax [(5, 6, 7, 8)] allW 2 = some (5, 6, 7, 8) ∧
      getGuess .frequencyProbe [(5, 6, 7, 8), (0, 0, 0, 0)] allW 2 = some (5, 6, 7, 8) :=
  ⟨by decide, strategy_totality_spec.1 .hybrid csW allW 0 (by decide),
    strategy_totality_spec.2.1 .minimax (5, 6, 7, 8) allW 2,
    strategy_totality_spec.2.2.1 .frequencyProbe (5, 6, 7, 8) (0, 0, 0, 0) allW 2⟩

theorem target_mem_filterCandidates (t : Code) (cs : List Code) (g : Code) (h : t ∈ cs) :
    t ∈ filterCandidates cs g (computeFeedback g t) := by
  rw [filterCandidates, List.mem_filter]
  exact ⟨h, by simp⟩

theorem simulateGo_eq_NC (strat : StrategyName) (t : Code) (all : List Code)
    (maxSteps : Nat) :
    ∀ (fuel round : Nat) (cs : List Code) (gs : List String), t ∈ cs →
      simulateGo strat t all maxSteps fuel round cs gs =
          simulateGoNC strat t all maxSteps fuel round cs gs ∧
        (simulateGo strat t all maxSteps fuel round cs gs).isSome := by
  intro fuel
  induction fuel with
  | zero => intro round cs gs _; exact ⟨rfl, rfl⟩
  | succ f ih =>
    intro round cs gs ht
    have hne : cs ≠ [] := List.ne_nil_of_mem ht
    obtain ⟨g, hg⟩ := Option.isSome_iff_exists.mp (getGuess_total strat cs all round hne)
    have ht' : t ∈ filterCandidates cs g (computeFeedback g t) :=
      target_mem_filterCandidates t cs g ht
    have hlen : ¬(filterCandidates cs g (computeFeedback g t)).length = 0 := by
      have := List.length_pos.mpr (List.ne_nil_of_mem ht')
      omega
    rw [simulateGo, simulateGoNC, hg]
    dsimp only
    rw [if_neg hlen]
    by_cases hm : isExactMatch g t = true
    · rw [if_pos hm, if_pos hm]
      exact ⟨rfl, rfl⟩
    · rw [if_neg hm, if_neg hm]
      exact ih (round + 1) _ _ ht'

/-- C7: the target always survives filtering by its own feedback, so along
every simulation the candidate list keeps the target, never becomes
empty, and the `candidates.length === 0` contradiction branch is dead
code: the simulator with that branch equals the simulator without it, and
always returns a result. -/
theorem simulator_invariant_spec :
    (∀ (t : Code) (cs : List Code) (g : Code), t ∈ cs →
        t ∈ filterCandidates cs g (computeFeedback g t)) ∧
      (∀ (strat : StrategyName) (t : Code) (all : List Code) (maxSteps fuel round : Nat)
        (cs : List Code) (gs : List String), t ∈ cs →
          simulateGo strat t all maxSteps fuel round cs gs =
              simulateGoNC strat t all maxSteps fuel round cs gs ∧
            (simulateGo strat t all maxSteps fuel round cs gs).isSome) ∧
      (∀ (strat : StrategyName) (t : Code) (all : List Code) (maxSteps : Nat), t ∈ all →
        (simulateGame strat t all maxSteps).isSome) := by
  refine ⟨target_mem_filterCandidates,
    fun strat t all maxSteps fuel round cs gs ht => simulateGo_eq_NC strat t all maxSteps fuel round cs gs ht,
    fun strat t all maxSteps ht => ?_⟩
  exact (simulateGo_eq_NC strat t all maxSteps maxSteps 0 all [] ht).2

theorem simulator_invariant_witness :
    ((1, 1, 1, 1) : Code) ∈ csW ∧
      (simulateGo .hybrid (1, 1, 1, 1) csW 2 2 0 csW [] =
          simulateGoNC .hybrid (1, 1, 1, 1) csW 2 2 0 csW [] ∧
        (simulateGo .hybrid (1, 1, 1, 1) csW 2 2 0 csW []).isSome) ∧
      (simulateGame .hybrid (1, 1, 1, 1) csW 2).isSome :=
  ⟨by decide,
    simulator_invariant_spec.2.1 .hybrid (1, 1, 1, 1) csW 2 2 0 csW [] (by decide),
    simulator_invariant_spec.2.2 .hybrid (1, 1, 1, 1) csW 2 (by decide)⟩

theorem knownSum_init : knownSum initDigits = 0 := by
  simp [knownSum, initDigits]

theorem knownSum_update (m : Fin 10 → DigitKnowledge) (d : Digit) (k : DigitKnowledge) :
    knownSum (Function.update m d k) + ((m d).confirmedCount.getD 0) =
      knownSum m + (k.confirmedCount.getD 0) := by
  rw [knownSum, knownSum]
  have hfun : ∀ i, ((Function.update m d k i).confirmedCount.getD 0) =
      Function.update (fun i => ((m i).confirmedCount.getD 0)) d
        (k.confirmedCount.getD 0) i := by
    intro i
    by_cases h : i = d
    · subst h
      simp
    · simp [Function.update_apply, h]
  rw [Finset.sum_congr rfl fun i _ => hfun i]
  rw [Finset.sum_update_of_mem (Finset.mem_univ d)]
  rw [Finset.sdiff_singleton_eq_erase]
  rw [← Finset.add_sum_erase Finset.univ _ (Finset.mem_univ d)]
  omega

theorem knownSum_process (h : List GameRound) :
    ∀ m : Fin 10 → DigitKnowledge,
      (∀ r ∈ h, uniformGuess r.guess = true) →
      (probedDigits h).Nodup →
      (∀ d ∈ probedDigits h, (m d).confirmedCount = none) →
      knownSum (h.foldl processRound m) = knownSum m + feedbackTotal h := by
  induction h with
  | nil =>
    intro m _ _ _
    simp [feedbackTotal]
  | cons r t ih =>
    intro m hu hnd hnone
    rcases hr : r.feedback with _ | fb
    · have hpr : processRound m r = m := by rw [processRound, hr]
      have hpd : probedDigits (r :: t) = probedDigits t := by
        rw [probedDigits, List.filterMap_cons]
        simp [hr, probedDigits]
      have hft : feedbackTotal (r :: t) = feedbackTotal t := by
        rw [feedbackTotal, List.filterMap_cons]
        simp [hr, feedbackTotal]
      rw [List.foldl_cons, hpr, hft]
      rw [hpd] at hnd hnone
      exact ih m (fun r' hr' => hu r' (List.mem_cons_of_mem r hr')) hnd hnone
    · have hu0 : uniformGuess r.guess = true := hu r (List.mem_cons_self r t)
      have hpr : processRound m r = Function.update m r.guess.1 ⟨some fb, fb, fb⟩ := by
        rw [processRound, hr]
        dsimp only
        rw [if_pos hu0]
      have hpd : probedDigits (r :: t) = r.guess.1 :: probedDigits t := by
        rw [probedDigits, List.filterMap_cons]
        simp [hr, probedDigits]
      have hft : feedbackTotal (r :: t) = fb + feedbackTotal t := by
        rw [feedbackTotal, List.filterMap_cons]
        simp [hr, feedbackTotal]
      rw [hpd] at hnd hnone
      have hnd' := List.nodup_cons.mp hnd
      have hnone' : ∀ d ∈ probedDigits t,
          ((Function.update m r.guess.1 ⟨some fb, fb, fb⟩) d).confirmedCount = none := by
        intro d hd
        have hne : d ≠ r.guess.1 := fun heq => hnd'.1 (heq ▸ hd)
        rw [Function.update_apply, if_neg hne]
        exact hnone d (List.mem_cons_of_mem _ hd)
      rw [List.foldl_cons, hpr, hft]
      rw [ih _ (fun r' hr' => hu r' (List.mem_cons_of_mem r hr')) hnd'.2 hnone']
      have h0 : (m r.guess.1).confirmedCount = none :=
        hnone r.guess.1 (List.mem_cons_self _ _)
      have hup := knownSum_update m r.guess.1 ⟨some fb, fb, fb⟩
      rw [h0] at hup
      simp only [Option.getD_none, Option.getD_some] at hup
      omega

theorem analyzeKnowledge_unknownDigits (h : List GameRound) :
    (analyzeKnowledge h).unknownDigits = (List.finRange 10).filter fun d =>
      decide (classOf (capAndForce (processHistory h)
        (4 - knownSum (processHistory h)) d) = .unknownC) := rfl

theorem analyzeKnowledge_confirmedDigits (h : List GameRound) :
    (analyzeKnowledge h).confirmedDigits = (List.finRange 10).filter fun d =>
      decide (classOf (capAndForce (processHistory h)
        (4 - knownSum (processHistory h)) d) = .confirmedC) := rfl

theorem analyzeKnowledge_eliminatedDigits (h : List GameRound) :
    (analyzeKnowledge h).eliminatedDigits = (List.finRange 10).filter fun d =>
      decide (classOf (capAndForce (processHistory h)
        (4 - knownSum (processHistory h)) d) = .eliminatedC) := rfl

theorem analyzeKnowledge_compositionKnown (h : List GameRound) :
    (analyzeKnowledge h).compositionKnown = decide
      ((((List.finRange 10).filter fun d =>
          decide (classOf (capAndForce (processHistory h)
            (4 - knownSum (processHistory h)) d) = .unknownC)).length = 0) ∧
        4 - knownSum (processHistory h) = 0) := rfl

theorem capAndForce_some (m : Fin 10 → DigitKnowledge) (hrem : (4 : Int) - knownSum m = 0)
    (d : Digit) : (capAndForce m (4 - knownSum m) d).confirmedCount ≠ none := by
  rw [capAndForce]
  split_ifs with h1 h2 <;> simp_all

theorem classOf_not_unknown (k : DigitKnowledge) (h : k.confirmedCount ≠ none) :
    classOf k ≠ .unknownC := by
  rcases hcc : k.confirmedCount with _ | c
  · exact absurd hcc h
  · rw [classOf, hcc]
    dsimp only
    split_ifs <;> simp

/-- C5 (amended): for a history of monochromatic guesses probing pairwise
distinct digits whose (non-null) feedbacks sum to 4, `analyzeKnowledge`
reports the composition as known and classifies all ten digits as
confirmed or eliminated, leaving no unknown digit. -/
theorem knowledge_composition_spec (h : List GameRound)
    (hu : ∀ r ∈ h, uniformGuess r.guess = true)
    (hnd : (probedDigits h).Nodup)
    (hft : feedbackTotal h = 4) :
    (analyzeKnowledge h).compositionKnown = true ∧
      (analyzeKnowledge h).unknownDigits = [] ∧
      ∀ d : Digit, d ∈ (analyzeKnowledge h).confirmedDigits ∨
        d ∈ (analyzeKnowledge h).eliminatedDigits := by
  have hks : knownSum (processHistory h) = 4 := by
    rw [processHistory, knownSum_process h initDigits hu hnd (fun d _ => rfl)]
    rw [knownSum_init, hft]
    ring
  have hrem : (4 : Int) - knownSum (processHistory h) = 0 := by rw [hks]; ring
  have hclass : ∀ d : Digit, classOf (capAndForce (processHistory h)
      (4 - knownSum (processHistory h)) d) ≠ .unknownC :=
    fun d => classOf_not_unknown _ (capAndForce_some (processHistory h) hrem d)
  have hunk : (analyzeKnowledge h).unknownDigits = [] := by
    rw [analyzeKnowledge_unknownDigits]
    exact List.filter_eq_nil_iff.mpr fun d _ => by simp [hclass d]
  refine ⟨?_, hunk, ?_⟩
  · rw [analyzeKnowledge_compositionKnown]
    rw [analyzeKnowledge_unknownDigits] at hunk
    rw [hunk]
    simp [hrem]
  · intro d
    rcases hco : classOf (capAndForce (processHistory h)
        (4 - knownSum (processHistory h)) d) with _ | _ | _
    · left
      rw [analyzeKnowledge_confirmedDigits, List.mem_filter]
      exact ⟨List.mem_finRange d, by simp [hco]⟩
    · right
      rw [analyzeKnowledge_eliminatedDigits, List.mem_filter]
      exact ⟨List.mem_finRange d, by simp [hco]⟩
    · exact absurd hco (hclass d)

/-- C5 counterexample: probing the same digit twice (feedback 2 both
times) gives monochromatic guesses with feedbacks summing to 4, yet the
composition is *not* known — only two slots are pinned down. -/
theorem knowledge_composition_counterexample :
    (∀ r ∈ histBad, uniformGuess r.guess = true) ∧
      feedbackTotal histBad = 4 ∧
      (analyzeKnowledge histBad).compositionKnown = false ∧
      (analyzeKnowledge histBad).unknownDigits ≠ [] := by
  refine ⟨by decide, by decide, ?_, ?_⟩
  · rw [analyzeKnowledge_compositionKnown]
    decide
  · rw [analyzeKnowledge_unknownDigits]
    decide

theorem knowledge_composition_witness :
    (∀ r ∈ histW, uniformGuess r.guess = true) ∧
      (probedDigits histW).Nodup ∧ feedbackTotal histW = 4 ∧
      ((analyzeKnowledge histW).compositionKnown = true ∧
        (analyzeKnowledge histW).unknownDigits = [] ∧
        ∀ d : Digit, d ∈ (analyzeKnowledge histW).confirmedDigits ∨
          d ∈ (analyzeKnowledge histW).eliminatedDigits) :=
  ⟨by decide, by decide, by decide,
    knowledge_composition_spec histW (by decide) (by decide) (by decide)⟩

theorem string_length_eq_toList (s : String) : s.length = s.toList.length := rfl

theorem char_le_iff_toNat (a b : Char) : a ≤ b ↔ a.toNat ≤ b.toNat := by
  rw [Char.le_def, UInt32.le_def, BitVec.le_def]
  exact Iff.rfl

theorem isDigit_iff_le (c : Char) : c.isDigit = true ↔ ('0' ≤ c ∧ c ≤ '9') := by
  rw [Char.isDigit]
  simp only [Bool.and_eq_true, decide_eq_true_eq, ge_iff_le]
  rw [char_le_iff_toNat '0' c, char_le_iff_toNat c '9']
  rw [UInt32.le_def, BitVec.le_def, UInt32.le_def, BitVec.le_def]
  exact Iff.rfl

theorem jsCharToNumber_le (c : Char) (v : Nat) (h : jsCharToNumber c = some v) : v ≤ 9 := by
  rw [jsCharToNumber] at h
  split_ifs at h with h1 h2
  · rw [Option.some_inj] at h
    have h9 : c.toNat ≤ 57 := by
      have := (char_le_iff_toNat c '9').mp h1.2
      exact this
    omega
  · rw [Option.some_inj] at h
    omega

theorem jsCharToNumber_isSome_iff (c : Char) :
    (jsCharToNumber c).isSome = true ↔ (c.isDigit = true ∨ c ∈ jsWhitespace) := by
  rw [jsCharToNumber]
  split_ifs with h1 h2
  · simp [isDigit_iff_le, h1]
  · simp [h2]
  · simp only [Option.isSome_none, Bool.false_eq_true, false_iff]
    rintro (hdig | hmem)
    · exact h1 ((isDigit_iff_le c).mp hdig)
    · exact h2 hmem

theorem list_length_eq_four {l : List Char} (h : l.length = 4) :
    ∃ a b c d, l = [a, b, c, d] := by
  cases l with
  | nil => simp at h
  | cons a l1 =>
    cases l1 with
    | nil => simp at h
    | cons b l2 =>
      cases l2 with
      | nil => simp at h
      | cons c l3 =>
        cases l3 with
        | nil => simp at h
        | cons d l4 =>
          cases l4 with
          | nil => exact ⟨a, b, c, d, rfl⟩
          | cons e l5 => simp at h

/-- C8 (amended): `stringToCode` succeeds exactly on strings of length 4
whose characters are decimal digits *or* ECMAScript whitespace characters
(the JavaScript `Number` conversion maps a whitespace-only string to 0
rather than `NaN`); it still fails on every other string, producing no
half-built code. -/
theorem stringToCode_success_iff (s : String) :
    (stringToCode s).isSome = true ↔
      (s.length = 4 ∧ ∀ c ∈ s.toList, (c.isDigit = true ∨ c ∈ jsWhitespace)) := by
  rw [stringToCode]
  by_cases hlen : s.length = 4
  · rw [if_pos hlen]
    have hlen' : s.toList.length = 4 := by rw [← string_length_eq_toList]; exact hlen
    obtain ⟨a, b, c, d, he⟩ := list_length_eq_four hlen'
    rw [he]
    simp only [List.map_cons, List.map_nil, List.mem_cons, List.not_mem_nil, or_false,
      hlen, true_and]
    rcases ha : jsCharToNumber a with _ | va <;>
      rcases hb : jsCharToNumber b with _ | vb <;>
        rcases hc2 : jsCharToNumber c with _ | vc <;>
          rcases hd2 : jsCharToNumber d with _ | vd
    all_goals try have hva := jsCharToNumber_le a va ha
    all_goals try have hvb := jsCharToNumber_le b vb hb
    all_goals try have hvc := jsCharToNumber_le c vc hc2
    all_goals try have hvd := jsCharToNumber_le d vd hd2
    all_goals simp_all [← jsCharToNumber_isSome_iff, natToDigit]
  · rw [if_neg hlen]
    simp [hlen]

/-- C8 counterexample: the string `" 123"` (leading space) is accepted by
`stringToCode` and parsed as the code 0123, although its first character
is not a decimal digit. -/
theorem stringToCode_whitespace_counterexample :
    stringToCode " 123" = some (0, 1, 2, 3) ∧
      (stringToCode " 123").isSome = true ∧
      isDigitString " 123" = false := by
  refine ⟨by decide, by decide, by decide⟩

theorem genTargetsAux_nodup (count : Nat) :
    ∀ (fuel s : Nat) (seen : List String) (acc : List Code),
      (∀ k ∈ acc.map codeToString, k ∈ seen) → (acc.map codeToString).Nodup →
      ((genTargetsAux count fuel s seen acc).map codeToString).Nodup := by
  intro fuel
  induction fuel with
  | zero =>
    intro s seen acc _ hnd
    rw [genTargetsAux, List.map_reverse, List.nodup_reverse]
    exact hnd
  | succ f ih =>
    intro s seen acc hsub hnd
    rw [genTargetsAux]
    dsimp only
    split_ifs with h1 h2
    · exact ih _ _ _ hsub hnd
    · apply ih
      · intro k hk
        rw [List.map_cons, List.mem_cons] at hk
        rcases hk with rfl | hk
        · exact List.mem_cons_self _ _
        · exact List.mem_cons_of_mem _ (hsub k hk)
      · rw [List.map_cons, List.nodup_cons]
        exact ⟨fun hmem => h2 (hsub _ hmem), hnd⟩
    · rw [List.map_reverse, List.nodup_reverse]
      exact hnd

/-- C9: target generation is a pure function of `(fuel, count, seed)` —
two runs agree — and the produced targets are pairwise distinct (the
`seen` key set admits each code string at most once). -/
theorem generateRandomTargets_spec (fuel count seed : Nat) :
    generateRandomTargets fuel count seed = generateRandomTargets fuel count seed ∧
      (generateRandomTargets fuel count seed).Nodup := by
  refine ⟨rfl, ?_⟩
  have h := genTargetsAux_nodup count fuel (seed % M32) [] [] (by simp) (by simp)
  exact h.of_map

theorem card_code : Fintype.card Code = 10000 := by
  simp

theorem generateRandomTargets_length_le (fuel count seed : Nat) :
    (generateRandomTargets fuel count seed).length ≤ 10000 := by
  have hnd := (generateRandomTargets_spec fuel count seed).2
  calc (generateRandomTargets fuel count seed).length ≤ Fintype.card Code :=
      hnd.length_le_card
    _ = 10000 := card_code

/-- C10: with more than 10,000 requested targets the generation loop can
never finish (only 10,000 distinct codes exist and duplicates are
skipped): under every fuel budget the target list stays short of `count`,
completion never occurs, and the benchmark — which computes its target
list synchronously before scheduling the first chunk, hence before any
callback — never reaches a progress or completion callback. -/
theorem generation_diverges_spec :
    (∀ count fuel seed : Nat, 10000 < count →
        (generateRandomTargets fuel count seed).length < count ∧
          generateRandomTargetsComplete fuel count seed = none) ∧
      (∀ (config : BenchmarkConfig) (fuel now : Nat), 10000 < config.numTargets →
        runBenchmarkTargets fuel config now = none) := by
  have hmain : ∀ count fuel seed : Nat, 10000 < count →
      (generateRandomTargets fuel count seed).length < count ∧
        generateRandomTargetsComplete fuel count seed = none := by
    intro count fuel seed hcount
    have hle := generateRandomTargets_length_le fuel count seed
    refine ⟨by omega, ?_⟩
    rw [generateRandomTargetsComplete]
    rw [if_neg (by omega)]
  exact ⟨hmain, fun config fuel now hc =>
    (hmain config.numTargets fuel (config.seed.getD now) hc).2⟩

theorem generation_diverges_witness :
    (10000 : Nat) < 10001 ∧
      (generateRandomTargets 3 10001 42).length < 10001 ∧
      generateRandomTargetsComplete 3 10001 42 = none ∧
      runBenchmarkTargets 3 ⟨10001, [.hybrid], some 42⟩ 0 = none :=
  ⟨by omega, (generation_diverges_spec.1 10001 3 42 (by omega)).1,
    (generation_diverges_spec.1 10001 3 42 (by omega)).2,
    generation_diverges_spec.2 ⟨10001, [.hybrid], some 42⟩ 3 0 (by decide)⟩

end GuessGame
